import Mathlib

/-!
Verification of the market-data aggregation core in
`src/core/src/market_data/processor.rs`.

Modelling conventions:
* Rust `f64` prices and quantities are modelled as `ℚ` (the claims under
  study are structural: which fields are written, overwrite vs. accumulate,
  sums of the very additions the code performs).
* `BTreeMap<u64, f64>` is modelled as an association list sorted strictly
  by key (`mapInsert` keeps it sorted); `BTreeMap::range(lo..=hi)` panics
  in Rust when `lo > hi`, which is modelled by an `Option` result.
* `HashMap<String, SymbolData>` is modelled as an association list (only
  `get` and `entry`-style insertion are used, never iteration).
* The bounded crossbeam channel is modelled by its buffer contents, its
  capacity and whether the receiving side is still connected;
  `Sender::send` returns an error only when the channel is disconnected,
  enqueues when the buffer has spare capacity, and otherwise blocks.
* The worker loop `for message in receiver { process_message(..); count += 1 }`
  is modelled as a fold of `step` over the list of delivered messages.
-/

namespace Market

inductive MarketMessageType
  | Add
  | Modify
  | Cancel
  | Trade
deriving DecidableEq

structure MarketMessage where
  timestamp_ns : Nat
  symbol : String
  message_type : MarketMessageType
  order_id : Option String
  price : Option ℚ
  quantity : Option ℚ
  is_buy : Option Bool
  trade_id : Option String
deriving DecidableEq

structure SymbolData where
  last_price : ℚ
  daily_volume : ℚ
  last_update_time : Nat
  price_history : List (Nat × ℚ)
  volume_history : List (Nat × ℚ)
deriving DecidableEq

/-- `BTreeMap::insert`: overwrite the value at a key, keeping keys sorted. -/
def mapInsert (k : Nat) (v : ℚ) : List (Nat × ℚ) → List (Nat × ℚ)
  | [] => [(k, v)]
  | (k', v') :: rest =>
    if k < k' then (k, v) :: (k', v') :: rest
    else if k = k' then (k, v) :: rest
    else (k', v') :: mapInsert k v rest

/-- `BTreeMap::get`. -/
def mapGet (k : Nat) : List (Nat × ℚ) → Option ℚ
  | [] => none
  | (k', v') :: rest => if k = k' then some v' else mapGet k rest

/-- `BTreeMap::range(lo..=hi)` collected to a vector; Rust panics when
`lo > hi`, modelled as `none`. -/
def mapRange (start_time end_time : Nat) (m : List (Nat × ℚ)) :
    Option (List (Nat × ℚ)) :=
  if end_time < start_time then none
  else some (m.filter (fun p => start_time ≤ p.1 && p.1 ≤ end_time))

/-- `HashMap::get`. -/
def storeGet (sym : String) : List (String × SymbolData) → Option SymbolData
  | [] => none
  | (sym', sd') :: rest => if sym = sym' then some sd' else storeGet sym rest

/-- `HashMap` insertion (the net effect of `entry(..).or_insert_with(..)`
followed by mutation of the entry). -/
def storeInsert (sym : String) (sd : SymbolData) :
    List (String × SymbolData) → List (String × SymbolData)
  | [] => [(sym, sd)]
  | (sym', sd') :: rest =>
    if sym = sym' then (sym, sd) :: rest else (sym', sd') :: storeInsert sym sd rest

/-- The zero-initialized aggregate created by `or_insert_with` on first trade. -/
def defaultSymbolData : SymbolData :=
  { last_price := 0
    daily_volume := 0
    last_update_time := 0
    price_history := []
    volume_history := [] }

/-- `MarketDataProcessor::process_message`, translated clause by clause from
the Rust source. -/
def process_message (message : MarketMessage)
    (symbol_data : List (String × SymbolData)) : List (String × SymbolData) :=
  let timestamp := message.timestamp_ns
  match message.message_type with
  | MarketMessageType.Trade =>
    match message.price, message.quantity with
    | some price, some quantity =>
      let symbol_entry := (storeGet message.symbol symbol_data).getD defaultSymbolData
      let ms_timestamp := timestamp / 1000000
      storeInsert message.symbol
        { last_price := price
          daily_volume := symbol_entry.daily_volume + quantity
          last_update_time := timestamp
          price_history := mapInsert ms_timestamp price symbol_entry.price_history
          volume_history :=
            mapInsert ms_timestamp
              ((mapGet ms_timestamp symbol_entry.volume_history).getD 0 + quantity)
              symbol_entry.volume_history }
        symbol_data
    | _, _ => symbol_data
  | _ => symbol_data

/-- Observable processor state: the atomic message counter and the
symbol-data store behind the mutex. -/
structure ProcState where
  message_count : Nat
  symbol_data : List (String × SymbolData)
deriving DecidableEq

def initState : ProcState := { message_count := 0, symbol_data := [] }

/-- One iteration of the worker loop spawned by `start_processing`:
process a message, then increment the counter. -/
def step (s : ProcState) (message : MarketMessage) : ProcState :=
  { message_count := s.message_count + 1
    symbol_data := process_message message s.symbol_data }

/-- The worker having drained the given message sequence, in order. -/
def run (msgs : List MarketMessage) : ProcState := msgs.foldl step initState

def get_message_count (s : ProcState) : Nat := s.message_count

def get_last_price (s : ProcState) (symbol : String) : Option ℚ :=
  (storeGet symbol s.symbol_data).map SymbolData.last_price

def get_daily_volume (s : ProcState) (symbol : String) : Option ℚ :=
  (storeGet symbol s.symbol_data).map SymbolData.daily_volume

/-- `MarketDataProcessor::get_price_history`; `none` models the
`BTreeMap::range` panic when the symbol is present and the bounds are
inverted. -/
def get_price_history (s : ProcState) (symbol : String)
    (start_time end_time : Nat) : Option (List (Nat × ℚ)) :=
  match storeGet symbol s.symbol_data with
  | some sd => mapRange start_time end_time sd.price_history
  | none => some []

/-- A bounded crossbeam channel as seen from a sender: the buffered
messages, the fixed capacity, and whether the receiving side is alive. -/
structure Channel where
  capacity : Nat
  buffered : List MarketMessage
  receiver_alive : Bool
deriving DecidableEq

inductive SendResult
  | ok (c : Channel)
  | blocked
  | err (e : String)
deriving DecidableEq

def SendResult.isErr : SendResult → Bool
  | SendResult.err _ => true
  | _ => false

/-- `crossbeam_channel::Sender::send` on a bounded channel: an error
exactly when the channel is disconnected; otherwise enqueue if the buffer
has spare capacity, and block (no return) when it is full. -/
def Channel.send (c : Channel) (message : MarketMessage) : SendResult :=
  if c.receiver_alive = false then SendResult.err "sending on a disconnected channel"
  else if c.buffered.length < c.capacity then
    SendResult.ok { c with buffered := c.buffered ++ [message] }
  else SendResult.blocked

/-- `MarketDataProcessor::submit_message`: `self.sender.send(message)`. -/
def submit_message (c : Channel) (message : MarketMessage) : SendResult :=
  c.send message

/-- A freshly constructed processor. -/
structure Processor where
  channel : Channel
  state : ProcState
deriving DecidableEq

/-- `MarketDataProcessor::new(buffer_size)`: `bounded(buffer_size)` succeeds
for every size, including 0 (a rendezvous channel); there is no capacity
check and no panic path. -/
def new (buffer_size : Nat) : Processor :=
  { channel := { capacity := buffer_size, buffered := [], receiver_alive := true }
    state := initState }

/-- A message counts toward aggregation iff it is a `Trade` carrying both
`price` and `quantity`. -/
def is_applied (m : MarketMessage) : Bool :=
  (m.message_type == MarketMessageType.Trade) && m.price.isSome && m.quantity.isSome

/-- Applied trade for a specific symbol. -/
def is_applied_trade (sym : String) (m : MarketMessage) : Bool :=
  (m.symbol == sym) && is_applied m

/-- The aggregate written for an applied trade, in terms of the previous
aggregate (or the zero default). -/
def tradeUpdate (m : MarketMessage) (price quantity : ℚ) (old : SymbolData) :
    SymbolData :=
  { last_price := price
    daily_volume := old.daily_volume + quantity
    last_update_time := m.timestamp_ns
    price_history := mapInsert (m.timestamp_ns / 1000000) price old.price_history
    volume_history :=
      mapInsert (m.timestamp_ns / 1000000)
        ((mapGet (m.timestamp_ns / 1000000) old.volume_history).getD 0 + quantity)
        old.volume_history }

/-! ### Basic lemmas about the map and store operations -/

theorem storeGet_storeInsert_self (sym : String) (sd : SymbolData)
    (store : List (String × SymbolData)) :
    storeGet sym (storeInsert sym sd store) = some sd := by
  induction store with
  | nil => simp [storeInsert, storeGet]
  | cons hd tl ih =>
    obtain ⟨sym', sd'⟩ := hd
    by_cases h : sym = sym' <;> simp [storeInsert, storeGet, h, ih]

theorem storeGet_storeInsert_ne (sym sym' : String) (sd : SymbolData)
    (store : List (String × SymbolData)) (h : sym ≠ sym') :
    storeGet sym (storeInsert sym' sd store) = storeGet sym store := by
  induction store with
  | nil => simp [storeInsert, storeGet, h]
  | cons hd tl ih =>
    obtain ⟨sym'', sd''⟩ := hd
    by_cases h' : sym' = sym'' <;>
      simp [storeInsert, storeGet, h', ih] <;>
      by_cases h'' : sym = sym'' <;>
      simp_all [storeGet]

theorem mapGet_mapInsert_self (k : Nat) (v : ℚ) (m : List (Nat × ℚ)) :
    mapGet k (mapInsert k v m) = some v := by
  induction m with
  | nil => simp [mapInsert, mapGet]
  | cons hd tl ih =>
    obtain ⟨k', v'⟩ := hd
    rcases Nat.lt_trichotomy k k' with h | h | h
    · simp [mapInsert, h, mapGet]
    · simp [mapInsert, h, mapGet]
    · have h1 : ¬ k < k' := by omega
      have h2 : k ≠ k' := by omega
      simp [mapInsert, h1, h2, mapGet, ih]

theorem mapGet_mapInsert_ne (k k' : Nat) (v : ℚ) (m : List (Nat × ℚ))
    (h : k ≠ k') :
    mapGet k (mapInsert k' v m) = mapGet k m := by
  induction m with
  | nil => simp [mapInsert, mapGet, h]
  | cons hd tl ih =>
    obtain ⟨k'', v''⟩ := hd
    rcases Nat.lt_trichotomy k' k'' with h' | h' | h'
    · simp [mapInsert, h', mapGet, h]
    · have : k ≠ k'' := by omega
      simp [mapInsert, h', mapGet, h, this]
    · have h1 : ¬ k' < k'' := by omega
      have h2 : k' ≠ k'' := by omega
      by_cases h3 : k = k'' <;> simp [mapInsert, h1, h2, mapGet, h3, ih]

/-! ### The two outcomes of the application step -/

theorem process_message_applied (m : MarketMessage)
    (store : List (String × SymbolData)) (price quantity : ℚ)
    (hT : m.message_type = MarketMessageType.Trade)
    (hp : m.price = some price) (hq : m.quantity = some quantity) :
    process_message m store =
      storeInsert m.symbol
        (tradeUpdate m price quantity ((storeGet m.symbol store).getD defaultSymbolData))
        store := by
  simp [process_message, hT, hp, hq, tradeUpdate]

theorem process_message_skip (m : MarketMessage)
    (store : List (String × SymbolData)) (h : is_applied m = false) :
    process_message m store = store := by
  cases hT : m.message_type <;> simp [process_message, hT]
  cases hp : m.price <;> cases hq : m.quantity <;>
    simp_all [is_applied, process_message, hT]

theorem step_message_count (s : ProcState) (m : MarketMessage) :
    (step s m).message_count = s.message_count + 1 := rfl

theorem storeGet_step_applied (s : ProcState) (m : MarketMessage)
    (sym : String) (h : is_applied_trade sym m = true) :
    ∃ price quantity, m.price = some price ∧ m.quantity = some quantity ∧
      storeGet sym (step s m).symbol_data =
        some (tradeUpdate m price quantity
          ((storeGet sym s.symbol_data).getD defaultSymbolData)) := by
  simp only [is_applied_trade, is_applied, Bool.and_eq_true, beq_iff_eq,
    Option.isSome_iff_exists] at h
  obtain ⟨hsym, ⟨hT, hpe⟩, hqe⟩ := h
  obtain ⟨price, hp⟩ := hpe
  obtain ⟨quantity, hq⟩ := hqe
  refine ⟨price, quantity, hp, hq, ?_⟩
  show storeGet sym (process_message m s.symbol_data) = _
  rw [process_message_applied m s.symbol_data price quantity hT hp hq, hsym,
    storeGet_storeInsert_self]

theorem storeGet_step_other (s : ProcState) (m : MarketMessage)
    (sym : String) (h : is_applied_trade sym m = false) :
    storeGet sym (step s m).symbol_data = storeGet sym s.symbol_data := by
  show storeGet sym (process_message m s.symbol_data) = _
  by_cases ha : is_applied m = true
  · have hsym : m.symbol ≠ sym := by
      intro hc
      simp [is_applied_trade, hc, ha] at h
    simp only [is_applied, Bool.and_eq_true, beq_iff_eq,
      Option.isSome_iff_exists] at ha
    obtain ⟨⟨hT, hpe⟩, hqe⟩ := ha
    obtain ⟨price, hp⟩ := hpe
    obtain ⟨quantity, hq⟩ := hqe
    rw [process_message_applied m s.symbol_data price quantity hT hp hq,
      storeGet_storeInsert_ne _ _ _ _ (Ne.symm hsym)]
  · rw [process_message_skip m s.symbol_data (by simpa using ha)]

theorem run_append_one (msgs : List MarketMessage) (m : MarketMessage) :
    run (msgs ++ [m]) = step (run msgs) m := by
  simp [run, List.foldl_append]

/-! ### Trace lemma: a symbol is present exactly after an applied trade -/

theorem storeGet_run_none_iff (msgs : List MarketMessage) (sym : String) :
    storeGet sym (run msgs).symbol_data = none ↔
      msgs.filter (is_applied_trade sym) = [] := by
  induction msgs using List.reverseRecOn with
  | nil => simp [run, initState, storeGet]
  | append_singleton msgs m ih =>
    rw [run_append_one, List.filter_append]
    by_cases h : is_applied_trade sym m = true
    · obtain ⟨p, q, hp, hq, hget⟩ := storeGet_step_applied (run msgs) m sym h
      simp [hget, h]
    · have h' : is_applied_trade sym m = false := by simpa using h
      rw [storeGet_step_other (run msgs) m sym h']
      simp [h', ih]

/-! ### Sortedness of the history maps and the store invariant -/

/-- Keys strictly increasing: the ordering `BTreeMap` maintains. -/
def keysSorted (m : List (Nat × ℚ)) : Prop :=
  List.Pairwise (fun a b => a.1 < b.1) m

theorem mem_mapInsert (y : Nat × ℚ) (k : Nat) (v : ℚ) (m : List (Nat × ℚ)) :
    y ∈ mapInsert k v m → y = (k, v) ∨ y ∈ m := by
  induction m with
  | nil => simp [mapInsert]
  | cons hd tl ih =>
    obtain ⟨k', v'⟩ := hd
    rcases Nat.lt_trichotomy k k' with h | h | h
    · simp [mapInsert, h]
    · simp [mapInsert, h, Nat.lt_irrefl]
      tauto
    · have h1 : ¬ k < k' := by omega
      have h2 : k ≠ k' := by omega
      simp only [mapInsert, if_neg h1, if_neg h2, List.mem_cons]
      rintro (rfl | hm)
      · tauto
      · rcases ih hm with rfl | hm' <;> tauto

theorem keysSorted_mapInsert (k : Nat) (v : ℚ) (m : List (Nat × ℚ))
    (hs : keysSorted m) : keysSorted (mapInsert k v m) := by
  induction m with
  | nil => simp [mapInsert, keysSorted]
  | cons hd tl ih =>
    obtain ⟨k', v'⟩ := hd
    rw [keysSorted, List.pairwise_cons] at hs
    obtain ⟨hhd, htl⟩ := hs
    rcases Nat.lt_trichotomy k k' with h | h | h
    · rw [keysSorted, mapInsert, if_pos h, List.pairwise_cons]
      constructor
      · intro y hy
        rcases List.mem_cons.mp hy with rfl | hy'
        · exact h
        · exact lt_trans h (hhd y hy')
      · rw [List.pairwise_cons]
        exact ⟨hhd, htl⟩
    · rw [keysSorted, mapInsert, if_neg (by omega), if_pos h, List.pairwise_cons]
      subst h
      exact ⟨hhd, htl⟩
    · have h1 : ¬ k < k' := by omega
      have h2 : k ≠ k' := by omega
      rw [keysSorted, mapInsert, if_neg h1, if_neg h2, List.pairwise_cons]
      constructor
      · intro y hy
        rcases mem_mapInsert y k v tl hy with rfl | hy'
        · exact h
        · exact hhd y hy'
      · exact ih htl

theorem mapGet_eq_some_iff_mem (k : Nat) (v : ℚ) (m : List (Nat × ℚ))
    (hs : keysSorted m) : mapGet k m = some v ↔ (k, v) ∈ m := by
  induction m with
  | nil => simp [mapGet]
  | cons hd tl ih =>
    obtain ⟨k', v'⟩ := hd
    rw [keysSorted, List.pairwise_cons] at hs
    obtain ⟨hhd, htl⟩ := hs
    by_cases h : k = k'
    · subst h
      have hnot : (k, v) ∉ tl := fun hmem => absurd (hhd _ hmem) (by simp)
      simp [mapGet, hnot, eq_comm]
    · simp [mapGet, h, ih htl, Prod.ext_iff]

/-- Invariant of every store the worker can produce: histories are sorted
and every price-history key is a volume-history key. -/
def storeWF (store : List (String × SymbolData)) : Prop :=
  ∀ sym sd, storeGet sym store = some sd →
    keysSorted sd.price_history ∧ keysSorted sd.volume_history ∧
    ∀ k, (mapGet k sd.price_history).isSome = true →
      (mapGet k sd.volume_history).isSome = true

theorem symbolDataWF_default :
    keysSorted defaultSymbolData.price_history ∧
    keysSorted defaultSymbolData.volume_history ∧
    ∀ k, (mapGet k defaultSymbolData.price_history).isSome = true →
      (mapGet k defaultSymbolData.volume_history).isSome = true := by
  refine ⟨?_, ?_, ?_⟩ <;> simp [defaultSymbolData, keysSorted, mapGet]

theorem storeWF_step (s : ProcState) (m : MarketMessage)
    (h : storeWF s.symbol_data) : storeWF (step s m).symbol_data := by
  intro sym sd hget
  by_cases ha : is_applied_trade sym m = true
  · obtain ⟨price, quantity, hp, hq, hget'⟩ := storeGet_step_applied s m sym ha
    rw [hget'] at hget
    obtain rfl : tradeUpdate m price quantity
        ((storeGet sym s.symbol_data).getD defaultSymbolData) = sd :=
      Option.some.inj hget
    set old := (storeGet sym s.symbol_data).getD defaultSymbolData with hold
    have hwf : keysSorted old.price_history ∧ keysSorted old.volume_history ∧
        ∀ k, (mapGet k old.price_history).isSome = true →
          (mapGet k old.volume_history).isSome = true := by
      cases hg : storeGet sym s.symbol_data with
      | none => rw [hold, hg]; exact symbolDataWF_default
      | some o => rw [hold, hg]; exact h sym o hg
    obtain ⟨hps, hvs, hsub⟩ := hwf
    refine ⟨keysSorted_mapInsert _ _ _ hps, keysSorted_mapInsert _ _ _ hvs, ?_⟩
    intro k hk
    by_cases hkb : k = m.timestamp_ns / 1000000
    · subst hkb
      simp [tradeUpdate, mapGet_mapInsert_self]
    · simp only [tradeUpdate] at hk ⊢
      rw [mapGet_mapInsert_ne _ _ _ _ hkb] at hk
      rw [mapGet_mapInsert_ne _ _ _ _ hkb]
      exact hsub k hk
  · rw [storeGet_step_other s m sym (by simpa using ha)] at hget
    exact h sym sd hget

theorem storeWF_foldl (msgs : List MarketMessage) (s : ProcState)
    (h : storeWF s.symbol_data) : storeWF (msgs.foldl step s).symbol_data := by
  induction msgs generalizing s with
  | nil => exact h
  | cons m rest ih => exact ih (step s m) (storeWF_step s m h)

theorem storeWF_run (msgs : List MarketMessage) :
    storeWF (run msgs).symbol_data :=
  storeWF_foldl msgs initState (by intro sym sd hget; simp [initState, storeGet] at hget)

/-! ### Concrete fixtures for witnesses and counterexamples -/

/-- A fully populated trade message. -/
def mkTrade (sym : String) (t : Nat) (p q : ℚ) : MarketMessage :=
  { timestamp_ns := t
    symbol := sym
    message_type := MarketMessageType.Trade
    order_id := none
    price := some p
    quantity := some q
    is_buy := none
    trade_id := none }

/-- An order-book `Add` message (no aggregation effect). -/
def mkAdd (sym : String) (t : Nat) : MarketMessage :=
  { timestamp_ns := t
    symbol := sym
    message_type := MarketMessageType.Add
    order_id := some "o1"
    price := some 1
    quantity := some 1
    is_buy := some true
    trade_id := none }

/-- A capacity-1 channel whose buffer already holds one message. -/
def fullChannel : Channel :=
  { capacity := 1
    buffered := [mkTrade "A" 0 1 1]
    receiver_alive := true }

/-! ### Claims -/

/-- Claim C1 counterexample: with the buffer of a capacity-1 channel already
full and the receiver alive, `submit_message` (crossbeam `Sender::send`)
blocks; it does not return an error value, so no `QueueFull` error is
reported to the caller. -/
theorem submit_message_full_blocked_not_error :
    submit_message fullChannel (mkTrade "B" 1 2 1) = SendResult.blocked ∧
    (submit_message fullChannel (mkTrade "B" 1 2 1)).isErr = false := by
  exact ⟨rfl, rfl⟩

/-- Claim C1 (amended): when the bounded queue is full and the consumer side
is alive, `submit_message` blocks until space frees up instead of returning;
an error is returned only when the channel is disconnected, and the message
is enqueued when spare capacity exists. -/
theorem submit_message_full_blocks (c : Channel) (m : MarketMessage) :
    (c.receiver_alive = true → c.capacity ≤ c.buffered.length →
      submit_message c m = SendResult.blocked) ∧
    (c.receiver_alive = false → (submit_message c m).isErr = true) ∧
    (c.receiver_alive = true → c.buffered.length < c.capacity →
      submit_message c m = SendResult.ok { c with buffered := c.buffered ++ [m] }) := by
  refine ⟨?_, ?_, ?_⟩
  · intro h1 h2
    simp [submit_message, Channel.send, h1, Nat.not_lt.mpr h2]
  · intro h1
    simp [submit_message, Channel.send, h1, SendResult.isErr]
  · intro h1 h2
    simp [submit_message, Channel.send, h1, h2]

/-- Claim C1 witness. -/
theorem submit_message_full_blocks_witness :
    submit_message fullChannel (mkTrade "B" 1 2 1) = SendResult.blocked :=
  (submit_message_full_blocks fullChannel (mkTrade "B" 1 2 1)).1 rfl (by decide)

/-- Claim C2 counterexample: `new(0)` does not abort — `bounded(0)` builds a
zero-capacity rendezvous channel and construction returns normally; and
`get_price_history` with `start_bucket > end_bucket` on a present symbol hits
the `BTreeMap::range` bound check and panics (modelled by `none`) instead of
returning. -/
theorem new_zero_ok_and_reversed_range_panics :
    new 0 = { channel := { capacity := 0, buffered := [], receiver_alive := true }
              state := initState } ∧
    get_price_history (run [mkTrade "X" 5000000 10 2]) "X" 5 3 = none := by
  exact ⟨rfl, rfl⟩

/-- Claim C2 (amended): construction never panics — `new n` succeeds for
every capacity including 0; `get_price_history` returns normally whenever
`start_bucket ≤ end_bucket`, and for an absent symbol it returns the empty
sequence for all bounds; but when the symbol is present and
`start_bucket > end_bucket` it panics in `BTreeMap::range`. -/
theorem public_operations_no_panic (n : Nat) (s : ProcState) (sym : String)
    (lo hi : Nat) :
    new n = { channel := { capacity := n, buffered := [], receiver_alive := true }
              state := initState } ∧
    (lo ≤ hi → (get_price_history s sym lo hi).isSome = true) ∧
    (storeGet sym s.symbol_data = none → get_price_history s sym lo hi = some []) := by
  refine ⟨rfl, ?_, ?_⟩
  · intro hle
    cases hg : storeGet sym s.symbol_data with
    | none => simp [get_price_history, hg]
    | some sd => simp [get_price_history, hg, mapRange, Nat.not_lt.mpr hle]
  · intro hg
    simp [get_price_history, hg]

/-- Claim C2 witness. -/
theorem public_operations_no_panic_witness :
    new 0 = { channel := { capacity := 0, buffered := [], receiver_alive := true }
              state := initState } ∧
    (get_price_history (run [mkTrade "X" 5000000 10 2]) "X" 3 5).isSome = true ∧
    get_price_history (run [mkTrade "X" 5000000 10 2]) "Y" 5 3 = some [] :=
  ⟨(public_operations_no_panic 0 (run [mkTrade "X" 5000000 10 2]) "X" 3 5).1,
   (public_operations_no_panic 0 (run [mkTrade "X" 5000000 10 2]) "X" 3 5).2.1
     (by decide),
   (public_operations_no_panic 0 (run [mkTrade "X" 5000000 10 2]) "Y" 5 3).2.2
     (by rfl)⟩

/-- Claim C3: applying a single `Trade` with both price and quantity present
updates that symbol's aggregate exactly as specified: `last_price := price`,
`daily_volume += quantity`, `last_update_time := timestamp_ns`, the bucket is
`timestamp_ns / 1_000_000`, `price_history[bucket]` is overwritten with the
price, `quantity` is added to `volume_history[bucket]` (missing bucket read
as 0), and no other bucket changes; the aggregate starts from the
zero/empty default when the symbol was absent. -/
theorem trade_application_updates_aggregate (s : ProcState)
    (m : MarketMessage) (price quantity : ℚ)
    (hT : m.message_type = MarketMessageType.Trade)
    (hp : m.price = some price) (hq : m.quantity = some quantity) :
    ∃ sd, storeGet m.symbol (step s m).symbol_data = some sd ∧
      sd.last_price = price ∧
      sd.daily_volume =
        ((storeGet m.symbol s.symbol_data).getD defaultSymbolData).daily_volume
          + quantity ∧
      sd.last_update_time = m.timestamp_ns ∧
      mapGet (m.timestamp_ns / 1000000) sd.price_history = some price ∧
      mapGet (m.timestamp_ns / 1000000) sd.volume_history =
        some ((mapGet (m.timestamp_ns / 1000000)
          ((storeGet m.symbol s.symbol_data).getD
            defaultSymbolData).volume_history).getD 0 + quantity) ∧
      ∀ k, k ≠ m.timestamp_ns / 1000000 →
        mapGet k sd.price_history =
          mapGet k ((storeGet m.symbol s.symbol_data).getD
            defaultSymbolData).price_history ∧
        mapGet k sd.volume_history =
          mapGet k ((storeGet m.symbol s.symbol_data).getD
            defaultSymbolData).volume_history := by
  have ha : is_applied_trade m.symbol m = true := by
    simp [is_applied_trade, is_applied, hT, hp, hq]
  obtain ⟨p', q', hp', hq', hget⟩ := storeGet_step_applied s m m.symbol ha
  rw [hp] at hp'
  rw [hq] at hq'
  obtain rfl : price = p' := Option.some.inj hp'
  obtain rfl : quantity = q' := Option.some.inj hq'
  refine ⟨_, hget, rfl, rfl, rfl, ?_, ?_, ?_⟩
  · exact mapGet_mapInsert_self _ _ _
  · exact mapGet_mapInsert_self _ _ _
  · intro k hk
    constructor
    · exact mapGet_mapInsert_ne _ _ _ _ hk
    · exact mapGet_mapInsert_ne _ _ _ _ hk

/-- Claim C3 witness. -/
theorem trade_application_updates_aggregate_witness :
    ∃ sd, storeGet "A" (step initState (mkTrade "A" 5000000 10 2)).symbol_data
        = some sd ∧
      sd.last_price = 10 ∧
      sd.daily_volume =
        ((storeGet "A" initState.symbol_data).getD defaultSymbolData).daily_volume
          + 2 ∧
      sd.last_update_time = 5000000 ∧
      mapGet 5 sd.price_history = some 10 ∧
      mapGet 5 sd.volume_history =
        some ((mapGet 5 ((storeGet "A" initState.symbol_data).getD
          defaultSymbolData).volume_history).getD 0 + 2) ∧
      ∀ k, k ≠ 5 →
        mapGet k sd.price_history =
          mapGet k ((storeGet "A" initState.symbol_data).getD
            defaultSymbolData).price_history ∧
        mapGet k sd.volume_history =
          mapGet k ((storeGet "A" initState.symbol_data).getD
            defaultSymbolData).volume_history :=
  trade_application_updates_aggregate initState (mkTrade "A" 5000000 10 2)
    10 2 rfl rfl rfl

/-- Claim C4: an event that is not a `Trade`, or a `Trade` missing price or
quantity, leaves the symbol store completely unchanged (and surfaces no
error — the step is total), while the throughput counter increments by one
for every processed event, applied or skipped alike. -/
theorem skipped_event_counted_without_mutation (s : ProcState)
    (m : MarketMessage) :
    (is_applied m = false → (step s m).symbol_data = s.symbol_data) ∧
    (step s m).message_count = s.message_count + 1 := by
  refine ⟨?_, rfl⟩
  intro h
  show process_message m s.symbol_data = s.symbol_data
  exact process_message_skip m s.symbol_data h

/-- Claim C4 witness. -/
theorem skipped_event_counted_without_mutation_witness :
    (step initState (mkAdd "A" 7)).symbol_data = initState.symbol_data ∧
    (step initState (mkAdd "A" 7)).message_count = initState.message_count + 1 :=
  ⟨(skipped_event_counted_without_mutation initState (mkAdd "A" 7)).1 rfl,
   (skipped_event_counted_without_mutation initState (mkAdd "A" 7)).2⟩

/-- The aggregate produced by the single trade `mkTrade "A" 5000000 10 2`. -/
def sdA : SymbolData :=
  { last_price := 10
    daily_volume := 2
    last_update_time := 5000000
    price_history := [(5, 10)]
    volume_history := [(5, 2)] }

/-- The aggregate produced by the single trade `mkTrade "Z" 100000000 21 2`. -/
def sdZ : SymbolData :=
  { last_price := 21
    daily_volume := 2
    last_update_time := 100000000
    price_history := [(100, 21)]
    volume_history := [(100, 2)] }

/-- Claim C5 counterexample: trade quantities are plain numeric fields with
no sign check, so a trade with negative quantity decreases `daily_volume`:
after quantities 5 and -1 for symbol "N", the volume drops from 5 to 4, so
it is not monotonically non-decreasing across successive applications. -/
theorem daily_volume_not_monotone_cex :
    get_daily_volume (run [mkTrade "N" 0 10 5]) "N" = some 5 ∧
    get_daily_volume (run [mkTrade "N" 0 10 5, mkTrade "N" 0 10 (-1)]) "N"
      = some 4 ∧
    ¬ ((5 : ℚ) ≤ 4) := by
  refine ⟨?_, ?_, by norm_num⟩ <;>
    simp [run, step, process_message, mkTrade, storeGet, storeInsert, mapGet,
      mapInsert, initState, defaultSymbolData, get_daily_volume] <;>
    norm_num

/-- Claim C5 (amended): for every symbol, `daily_volume` equals the sum of
the quantities of all applied trades for that symbol; and it is
monotonically non-decreasing across successive applications provided the
applied quantity is nonnegative (a negative quantity decreases it). -/
theorem daily_volume_sum_of_applied_quantities (msgs : List MarketMessage)
    (sym : String) :
    (∀ sd, storeGet sym (run msgs).symbol_data = some sd →
      sd.daily_volume =
        ((msgs.filter (is_applied_trade sym)).map
          (fun m => m.quantity.getD 0)).sum) ∧
    (∀ m v v', (0 : ℚ) ≤ m.quantity.getD 0 →
      get_daily_volume (run msgs) sym = some v →
      get_daily_volume (run (msgs ++ [m])) sym = some v' → v ≤ v') := by
  constructor
  · induction msgs using List.reverseRecOn with
    | nil =>
      intro sd h
      simp [run, initState, storeGet] at h
    | append_singleton msgs m ih =>
      intro sd h
      rw [run_append_one] at h
      rw [List.filter_append]
      by_cases ha : is_applied_trade sym m = true
      · obtain ⟨p, q, hp, hq, hget⟩ := storeGet_step_applied (run msgs) m sym ha
        rw [hget] at h
        obtain rfl := Option.some.inj h
        have hfm : [m].filter (is_applied_trade sym) = [m] := by simp [ha]
        rw [hfm, List.map_append, List.sum_append]
        have hqd : m.quantity.getD 0 = q := by rw [hq]; rfl
        simp only [tradeUpdate, List.map_cons, List.map_nil, List.sum_cons,
          List.sum_nil, hqd]
        cases hg : storeGet sym (run msgs).symbol_data with
        | none =>
          have hemp : msgs.filter (is_applied_trade sym) = [] :=
            (storeGet_run_none_iff msgs sym).mp hg
          simp [hemp, defaultSymbolData]
        | some o =>
          simp [ih o hg]
      · have ha' : is_applied_trade sym m = false := by simpa using ha
        rw [storeGet_step_other (run msgs) m sym ha'] at h
        have hfm : [m].filter (is_applied_trade sym) = [] := by simp [ha']
        rw [hfm, List.append_nil]
        exact ih sd h
  · intro m v v' hq0 hv hv'
    rw [run_append_one] at hv'
    by_cases ha : is_applied_trade sym m = true
    · obtain ⟨p, q, hp, hq, hget⟩ := storeGet_step_applied (run msgs) m sym ha
      simp only [get_daily_volume, Option.map_eq_some'] at hv hv'
      obtain ⟨sd0, hsd0, hveq⟩ := hv
      obtain ⟨sd1, hsd1, hveq'⟩ := hv'
      rw [hget] at hsd1
      obtain rfl := Option.some.inj hsd1
      have hqd : m.quantity.getD 0 = q := by rw [hq]; rfl
      rw [hqd] at hq0
      have hvol : (tradeUpdate m p q
          ((storeGet sym (run msgs).symbol_data).getD
            defaultSymbolData)).daily_volume = sd0.daily_volume + q := by
        rw [hsd0]
        rfl
      rw [hvol] at hveq'
      rw [← hveq, ← hveq']
      linarith
    · have ha' : is_applied_trade sym m = false := by simpa using ha
      have hsame := storeGet_step_other (run msgs) m sym ha'
      simp only [get_daily_volume, hsame] at hv'
      simp only [get_daily_volume] at hv
      rw [hv] at hv'
      exact le_of_eq (Option.some.inj hv')

/-- Claim C5 witness. -/
theorem daily_volume_sum_of_applied_quantities_witness :
    (sdA.daily_volume =
      (([mkTrade "A" 5000000 10 2].filter (is_applied_trade "A")).map
        (fun m => m.quantity.getD 0)).sum) ∧
    (2 : ℚ) ≤ 5 :=
  ⟨(daily_volume_sum_of_applied_quantities [mkTrade "A" 5000000 10 2] "A").1
      sdA
      (by simp [run, step, process_message, mkTrade, storeGet, storeInsert,
        mapGet, mapInsert, initState, defaultSymbolData, sdA]),
   (daily_volume_sum_of_applied_quantities [mkTrade "A" 5000000 10 2] "A").2
      (mkTrade "A" 6000000 11 3) 2 5
      (by norm_num [mkTrade])
      (by simp [run, step, process_message, mkTrade, storeGet, storeInsert,
        mapGet, mapInsert, initState, defaultSymbolData, get_daily_volume])
      (by simp [run, step, process_message, mkTrade, storeGet, storeInsert,
          mapGet, mapInsert, initState, defaultSymbolData, get_daily_volume]
          <;> norm_num)⟩

/-- Claim C7: in every reachable store, every key present in a symbol's
`price_history` is also present in its `volume_history` (each applied trade
inserts the same millisecond bucket into both maps). -/
theorem price_history_keys_in_volume_history (msgs : List MarketMessage)
    (sym : String) (sd : SymbolData)
    (h : storeGet sym (run msgs).symbol_data = some sd) (k : Nat)
    (hk : (mapGet k sd.price_history).isSome = true) :
    (mapGet k sd.volume_history).isSome = true :=
  (storeWF_run msgs sym sd h).2.2 k hk

/-- Claim C7 witness. -/
theorem price_history_keys_in_volume_history_witness :
    (mapGet 5 sdA.volume_history).isSome = true :=
  price_history_keys_in_volume_history [mkTrade "A" 5000000 10 2] "A" sdA
    (by simp [run, step, process_message, mkTrade, storeGet, storeInsert,
      mapGet, mapInsert, initState, defaultSymbolData, sdA])
    5
    (by simp [sdA, mapGet])

/-- Claim C9: applying any single event mutates at most the aggregate of
that event's own symbol — for every other symbol the stored aggregate (all
five fields at once) is unchanged by the application step. -/
theorem event_application_frames_other_symbols (s : ProcState)
    (m : MarketMessage) (sym : String) (h : sym ≠ m.symbol) :
    storeGet sym (step s m).symbol_data = storeGet sym s.symbol_data := by
  apply storeGet_step_other
  have hb : (m.symbol == sym) = false := beq_eq_false_iff_ne.mpr (Ne.symm h)
  simp [is_applied_trade, hb]

/-- Claim C9 witness. -/
theorem event_application_frames_other_symbols_witness :
    storeGet "A" (step (run [mkTrade "A" 5000000 10 2])
        (mkTrade "B" 6000000 3 1)).symbol_data =
      storeGet "A" (run [mkTrade "A" 5000000 10 2]).symbol_data :=
  event_application_frames_other_symbols (run [mkTrade "A" 5000000 10 2])
    (mkTrade "B" 6000000 3 1) "A" (by decide)

/-- Claim C6 counterexample: for a symbol that has an applied trade (at
bucket 100), querying with inverted bounds `start_bucket = 201 >
end_bucket = 200` does not return the empty sequence — it panics in
`BTreeMap::range` (modelled by `none`). -/
theorem price_history_reversed_range_cex :
    get_price_history (run [mkTrade "Y" 100000000 10 1]) "Y" 201 200 = none ∧
    get_price_history (run [mkTrade "Y" 100000000 10 1]) "Y" 201 200
      ≠ some [] := by
  exact ⟨rfl, by decide⟩

/-- Claim C6 (amended): when the symbol has never had an applied trade,
`get_price_history` returns the empty sequence for all bounds; when the
symbol is present and `start_bucket ≤ end_bucket`, it returns exactly the
pairs of `price_history` whose bucket lies in the inclusive range, ordered
by strictly increasing bucket; but with `start_bucket > end_bucket` on a
present symbol it panics instead of returning the empty sequence. -/
theorem price_history_range_inclusive (msgs : List MarketMessage)
    (sym : String) (lo hi : Nat) :
    (msgs.filter (is_applied_trade sym) = [] →
      get_price_history (run msgs) sym lo hi = some []) ∧
    (lo ≤ hi → ∀ sd, storeGet sym (run msgs).symbol_data = some sd →
      ∃ res, get_price_history (run msgs) sym lo hi = some res ∧
        List.Pairwise (fun a b => a.1 < b.1) res ∧
        ∀ k v, ((k, v) ∈ res ↔
          lo ≤ k ∧ k ≤ hi ∧ mapGet k sd.price_history = some v)) := by
  constructor
  · intro hf
    have hnone : storeGet sym (run msgs).symbol_data = none :=
      (storeGet_run_none_iff msgs sym).mpr hf
    simp [get_price_history, hnone]
  · intro hle sd h
    have hsorted : keysSorted sd.price_history := (storeWF_run msgs sym sd h).1
    refine ⟨sd.price_history.filter (fun p => lo ≤ p.1 && p.1 ≤ hi), ?_, ?_, ?_⟩
    · simp [get_price_history, h, mapRange, Nat.not_lt.mpr hle]
    · exact List.Pairwise.sublist (List.filter_sublist _) hsorted
    · intro k v
      rw [List.mem_filter, ← mapGet_eq_some_iff_mem k v _ hsorted]
      simp
      tauto

/-- Claim C6 witness. -/
theorem price_history_range_inclusive_witness :
    get_price_history (run ([] : List MarketMessage)) "Q" 7 3 = some [] ∧
    ∃ res, get_price_history (run [mkTrade "Z" 100000000 21 2]) "Z" 100 150
        = some res ∧
      List.Pairwise (fun a b => a.1 < b.1) res ∧
      ∀ k v, ((k, v) ∈ res ↔
        100 ≤ k ∧ k ≤ 150 ∧ mapGet k sdZ.price_history = some v) :=
  ⟨(price_history_range_inclusive [] "Q" 7 3).1 rfl,
   (price_history_range_inclusive [mkTrade "Z" 100000000 21 2] "Z" 100 150).2
     (by decide) sdZ
     (by simp [run, step, process_message, mkTrade, storeGet, storeInsert,
       mapGet, mapInsert, initState, defaultSymbolData, sdZ])⟩

/-- Claim C8: `get_last_price` and `get_daily_volume` return `none` exactly
when no trade has ever been applied for the symbol, and `some` of the
aggregate's `last_price` / `daily_volume` otherwise. -/
theorem queries_none_iff_unseen (msgs : List MarketMessage) (sym : String) :
    (get_last_price (run msgs) sym = none ↔
      msgs.filter (is_applied_trade sym) = []) ∧
    (get_daily_volume (run msgs) sym = none ↔
      msgs.filter (is_applied_trade sym) = []) ∧
    ∀ sd, storeGet sym (run msgs).symbol_data = some sd →
      get_last_price (run msgs) sym = some sd.last_price ∧
      get_daily_volume (run msgs) sym = some sd.daily_volume := by
  refine ⟨?_, ?_, ?_⟩
  · rw [← storeGet_run_none_iff msgs sym]
    simp [get_last_price]
  · rw [← storeGet_run_none_iff msgs sym]
    simp [get_daily_volume]
  · intro sd h
    constructor
    · simp [get_last_price, h]
    · simp [get_daily_volume, h]

/-- Claim C8 witness. -/
theorem queries_none_iff_unseen_witness :
    get_last_price (run [mkTrade "A" 5000000 10 2]) "A" = some sdA.last_price ∧
    get_daily_volume (run [mkTrade "A" 5000000 10 2]) "A"
      = some sdA.daily_volume :=
  (queries_none_iff_unseen [mkTrade "A" 5000000 10 2] "A").2.2 sdA
    (by simp [run, step, process_message, mkTrade, storeGet, storeInsert,
      mapGet, mapInsert, initState, defaultSymbolData, sdA])

/-- Claim C10: a symbol is present in the store exactly when it has had at
least one applied trade, and its `last_price` and `last_update_time` are the
price and timestamp of the most recently applied trade for that symbol —
the zero-initialized defaults are never observable through the queries. -/
theorem aggregates_reflect_latest_applied_trade (msgs : List MarketMessage)
    (sym : String) :
    (storeGet sym (run msgs).symbol_data = none ↔
      msgs.filter (is_applied_trade sym) = []) ∧
    ∀ sd, storeGet sym (run msgs).symbol_data = some sd →
      ∃ m, (msgs.filter (is_applied_trade sym)).getLast? = some m ∧
        m.price = some sd.last_price ∧ m.timestamp_ns = sd.last_update_time := by
  refine ⟨storeGet_run_none_iff msgs sym, ?_⟩
  induction msgs using List.reverseRecOn with
  | nil =>
    intro sd h
    simp [run, initState, storeGet] at h
  | append_singleton msgs m ih =>
    intro sd h
    rw [run_append_one] at h
    rw [List.filter_append]
    by_cases ha : is_applied_trade sym m = true
    · obtain ⟨p, q, hp, hq, hget⟩ := storeGet_step_applied (run msgs) m sym ha
      rw [hget] at h
      obtain rfl := Option.some.inj h
      refine ⟨m, ?_, ?_, rfl⟩
      · simp [ha]
      · simpa [tradeUpdate] using hp
    · have ha' : is_applied_trade sym m = false := by simpa using ha
      rw [storeGet_step_other (run msgs) m sym ha'] at h
      obtain ⟨m', hlast, hpm, htm⟩ := ih sd h
      refine ⟨m', ?_, hpm, htm⟩
      simp [ha', hlast]

/-- Claim C10 witness. -/
theorem aggregates_reflect_latest_applied_trade_witness :
    ∃ m, (([mkTrade "A" 5000000 10 2].filter (is_applied_trade "A")).getLast?
        = some m) ∧
      m.price = some sdA.last_price ∧ m.timestamp_ns = sdA.last_update_time :=
  (aggregates_reflect_latest_applied_trade [mkTrade "A" 5000000 10 2] "A").2
    sdA
    (by simp [run, step, process_message, mkTrade, storeGet, storeInsert,
      mapGet, mapInsert, initState, defaultSymbolData, sdA])

end Market
